import Mathlib

/-!
Verification of the bee-box utilities: a shallow embedding in Lean of
`builder.py` (word scrambling, per-word derived attributes, date
reformatting, chronological sort, subscriber-only flagging) and
`harvest.py` (idempotent append of the daily puzzle, brace-depth
extraction of the embedded JSON object).  Strings are modelled as
`List Char`; the outcomes of the `random.shuffle` calls are modelled as
an explicit family of functions supplied as a parameter.
-/

namespace BeeBox

/-- Characters stripped by Python `str.strip` (the ASCII whitespace set). -/
def isPySpace (c : Char) : Bool :=
  c = ' ' || c = '\t' || c = '\n' || c = '\r' || c = '\x0b' || c = '\x0c'

/-- Python `str.strip`: drop leading and trailing whitespace. -/
def pyStrip (l : List Char) : List Char :=
  ((l.dropWhile isPySpace).reverse.dropWhile isPySpace).reverse

/-- Python `str.upper`, character by character. -/
def pyUpper (l : List Char) : List Char := l.map Char.toUpper

/-- The `while scrambled == word and attempts < 10` loop of `scramble_word`
(`builder.py` lines 60-66).  `sh a w` is the outcome of the `random.shuffle`
call made at attempt `a` on a fresh copy of `w`; the fuel starts at `10`,
so the body runs at most ten times, matching `attempts < 10`. -/
def scrambleLoop (sh : Nat → List Char → List Char) (w : List Char) :
    Nat → Nat → List Char → List Char
  | 0, _, scrambled => scrambled
  | fuel + 1, attempts, scrambled =>
    if scrambled = w then
      scrambleLoop sh w fuel (attempts + 1) (sh attempts w)
    else
      scrambled

/-- `scramble_word` from `builder.py` lines 56-69: uppercase, return words of
length at most one unchanged, otherwise reshuffle up to ten times until the
result differs from the word, falling back to the reversed word. -/
def scramble_word (sh : Nat → List Char → List Char) (word : List Char) :
    List Char :=
  let w := pyUpper word
  if w.length ≤ 1 then w
  else
    let scrambled := scrambleLoop sh w 10 0 w
    if scrambled = w then w.reverse else scrambled

theorem scrambleLoop_perm (sh : Nat → List Char → List Char)
    (w : List Char) (hsh : ∀ n, (sh n w).Perm w) :
    ∀ (fuel attempts : Nat) (s : List Char), s.Perm w →
      (scrambleLoop sh w fuel attempts s).Perm w := by
  intro fuel
  induction fuel with
  | zero => intro attempts s hs; exact hs
  | succ n ih =>
    intro attempts s hs
    unfold scrambleLoop
    by_cases h : s = w
    · simp only [h, if_pos rfl]
      exact ih (attempts + 1) (sh attempts w) (hsh attempts)
    · simp only [if_neg h]
      exact hs

/-- Claim C2: for every input word and every sequence of shuffle outcomes
(each a permutation of its input), `scramble_word` returns a string with the
same character multiset and the same length as the uppercased input, and for
inputs of length at most one it returns the uppercased input unchanged. -/
theorem scramble_word_multiset_preserved (sh : Nat → List Char → List Char)
    (word : List Char)
    (hsh : ∀ n, (sh n (pyUpper word)).Perm (pyUpper word)) :
    (scramble_word sh word).Perm (pyUpper word) ∧
    (scramble_word sh word).length = word.length ∧
    (word.length ≤ 1 → scramble_word sh word = pyUpper word) := by
  have hperm : (scramble_word sh word).Perm (pyUpper word) := by
    unfold scramble_word
    by_cases hl : (pyUpper word).length ≤ 1
    · simp only [hl, if_pos]
      exact List.Perm.refl _
    · simp only [hl, if_neg, if_false]
      by_cases h : scrambleLoop sh (pyUpper word) 10 0 (pyUpper word) = pyUpper word
      · simp only [h, if_pos rfl]
        exact (List.reverse_perm _)
      · simp only [if_neg h]
        exact scrambleLoop_perm sh (pyUpper word) hsh 10 0 (pyUpper word)
          (List.Perm.refl _)
  have hlenUp : (pyUpper word).length = word.length := List.length_map _ _
  refine ⟨hperm, by rw [hperm.length_eq, hlenUp], ?_⟩
  intro hle
  unfold scramble_word
  have : (pyUpper word).length ≤ 1 := by rw [hlenUp]; exact hle
  simp only [this, if_pos]

/-- Witness for C2 at the word "ab" with identity shuffle outcomes. -/
theorem scramble_word_multiset_preserved_witness :
    (scramble_word (fun _ l => l) ['a', 'b']).Perm (pyUpper ['a', 'b']) ∧
    (scramble_word (fun _ l => l) ['a', 'b']).length =
      (['a', 'b'] : List Char).length ∧
    ((['a', 'b'] : List Char).length ≤ 1 →
      scramble_word (fun _ l => l) ['a', 'b'] = pyUpper ['a', 'b']) :=
  scramble_word_multiset_preserved (fun _ l => l) ['a', 'b']
    (fun _ => List.Perm.refl _)

/-- Claim C1 as stated is false: the word "ABA" has three distinct character
arrangements (its letters are not all identical), every shuffle outcome in
the identity family is a permutation of its input, yet when all ten shuffles
return the word itself the reversal fallback of the palindrome reproduces the
input, so `scramble_word` returns the word unchanged. -/
theorem scramble_word_C1_counterexample :
    (∃ c ∈ pyUpper ['A', 'B', 'A'], ∃ d ∈ pyUpper ['A', 'B', 'A'], c ≠ d) ∧
    (∀ (n : Nat) (l : List Char), ((fun (_ : Nat) (l : List Char) => l) n l).Perm l) ∧
    scramble_word (fun _ l => l) ['A', 'B', 'A'] = pyUpper ['A', 'B', 'A'] :=
  ⟨by decide, fun _ l => List.Perm.refl l, by decide⟩

/-- Claim C1 amended: for every word whose uppercase form is not a palindrome
(not equal to its own reversal — in particular its letters are not all
identical, so at least two distinct arrangements exist), and for every
sequence of outcomes of the random shuffles, `scramble_word` differs from the
uppercased input. -/
theorem scramble_word_ne_of_reverse_ne (sh : Nat → List Char → List Char)
    (word : List Char) (h : (pyUpper word).reverse ≠ pyUpper word) :
    scramble_word sh word ≠ pyUpper word := by
  have hl : ¬ (pyUpper word).length ≤ 1 := by
    intro hle
    apply h
    rcases e : pyUpper word with _ | ⟨a, t⟩
    · rfl
    · rw [e] at hle
      have ht : t = [] := by
        cases t with
        | nil => rfl
        | cons b u => simp at hle
      subst ht
      rfl
  unfold scramble_word
  simp only [hl, if_neg, if_false]
  by_cases hs : scrambleLoop sh (pyUpper word) 10 0 (pyUpper word) = pyUpper word
  · simp only [hs, if_pos rfl]
    exact h
  · simp only [if_neg hs]
    exact hs

/-- Witness for the amended C1: the word "abc" uppercases to "ABC", which
differs from its reversal "CBA", so the scramble differs from "ABC". -/
theorem scramble_word_ne_of_reverse_ne_witness :
    scramble_word (fun _ l => l) ['a', 'b', 'c'] ≠ pyUpper ['a', 'b', 'c'] :=
  scramble_word_ne_of_reverse_ne (fun _ l => l) ['a', 'b', 'c'] (by decide)

/-- Calendar dates as `datetime` values (year, month, day). -/
structure PyDate where
  year : Nat
  month : Nat
  day : Nat
deriving DecidableEq, Repr

/-- Lexicographic order on dates, as `datetime` comparison. -/
def dateLe (a b : PyDate) : Bool :=
  decide (a.year < b.year) ||
    (decide (a.year = b.year) &&
      (decide (a.month < b.month) ||
        (decide (a.month = b.month) && decide (a.day ≤ b.day))))

/-- Python `datetime.min`, the minimum representable date (year 1, Jan 1). -/
def dateMin : PyDate := ⟨1, 1, 1⟩

/-- Full month names recognised by the `%B` directive. -/
def monthNames : List (List Char) :=
  [['J', 'a', 'n', 'u', 'a', 'r', 'y'],
   ['F', 'e', 'b', 'r', 'u', 'a', 'r', 'y'],
   ['M', 'a', 'r', 'c', 'h'],
   ['A', 'p', 'r', 'i', 'l'],
   ['M', 'a', 'y'],
   ['J', 'u', 'n', 'e'],
   ['J', 'u', 'l', 'y'],
   ['A', 'u', 'g', 'u', 's', 't'],
   ['S', 'e', 'p', 't', 'e', 'm', 'b', 'e', 'r'],
   ['O', 'c', 't', 'o', 'b', 'e', 'r'],
   ['N', 'o', 'v', 'e', 'm', 'b', 'e', 'r'],
   ['D', 'e', 'c', 'e', 'm', 'b', 'e', 'r']]

/-- Case-insensitively remove a leading name from the input, returning the
rest, as the `%B` regex alternative does (`strptime` is case-insensitive). -/
def dropLeadingCI : List Char → List Char → Option (List Char)
  | [], rest => some rest
  | _ :: _, [] => none
  | p :: ps, c :: cs =>
    if p.toLower = c.toLower then dropLeadingCI ps cs else none

/-- Match one of the month names at the head of the input, returning the
month number and the rest; no full month name is a prefix of another, so the
first match is the only one. -/
def findMonth : List (List Char) → Nat → List Char → Option (Nat × List Char)
  | [], _, _ => none
  | nm :: rest, i, l =>
    match dropLeadingCI nm l with
    | some r => some (i, r)
    | none => findMonth rest (i + 1) l

/-- Exactly four decimal digits, as the `%Y` directive of `strptime`. -/
def parse4Digits : List Char → Option (Nat × List Char)
  | a :: b :: c :: d :: rest =>
    if a.isDigit && b.isDigit && c.isDigit && d.isDigit then
      some ((((a.toNat - 48) * 10 + (b.toNat - 48)) * 10 + (c.toNat - 48)) * 10
        + (d.toNat - 48), rest)
    else none
  | _ => none

/-- One or two decimal digits with a value bound, as the `%m` and `%d`
directives: two digits are accepted when their value lies in `[lo, hi]`
(zero excluded), a single digit when its value lies in `[1, 9]` and no
further digit follows (in the two formats used here the next format token
never matches a digit, so the regex backtracking collapses to this rule). -/
def parseNum2 (lo hi : Nat) : List Char → Option (Nat × List Char)
  | [] => none
  | [a] =>
    if a.isDigit then
      if 1 ≤ a.toNat - 48 ∧ a.toNat - 48 ≤ 9 then some (a.toNat - 48, []) else none
    else none
  | a :: b :: rest =>
    if a.isDigit then
      if b.isDigit then
        if lo ≤ (a.toNat - 48) * 10 + (b.toNat - 48) ∧
            (a.toNat - 48) * 10 + (b.toNat - 48) ≤ hi ∧
            1 ≤ (a.toNat - 48) * 10 + (b.toNat - 48) then
          some ((a.toNat - 48) * 10 + (b.toNat - 48), rest)
        else none
      else
        if 1 ≤ a.toNat - 48 ∧ a.toNat - 48 ≤ 9 then some (a.toNat - 48, b :: rest)
        else none
    else none

/-- Literal character in a `strptime` format. -/
def expectChar (c : Char) : List Char → Option (List Char)
  | [] => none
  | x :: rest => if x = c then some rest else none

/-- Literal whitespace in a `strptime` format matches one or more whitespace
characters; the following token is never whitespace, so the greedy scan
consumes the whole run. -/
def expectSpaces : List Char → Option (List Char)
  | [] => none
  | x :: rest => if isPySpace x then some (rest.dropWhile isPySpace) else none

/-- Gregorian leap-year rule used by `datetime`. -/
def isLeap (y : Nat) : Bool := (y % 4 == 0 && y % 100 != 0) || y % 400 == 0

/-- Days in a month, as validated by the `datetime` constructor. -/
def daysInMonth (y m : Nat) : Nat :=
  if m = 2 then (if isLeap y then 29 else 28)
  else if m = 4 ∨ m = 6 ∨ m = 9 ∨ m = 11 then 30
  else 31

/-- The `datetime(y, m, d)` constructor: validates ranges, else raises. -/
def mkPyDate (y m d : Nat) : Option PyDate :=
  if 1 ≤ y ∧ y ≤ 9999 ∧ 1 ≤ m ∧ m ≤ 12 ∧ 1 ≤ d ∧ d ≤ daysInMonth y m then
    some ⟨y, m, d⟩
  else none

/-- Python `datetime.strptime(s, d1)` for the compact format with the
four-digit year, the dashes and the month and day fields, requiring the
whole string to be consumed. -/
def parseIsoDate (l : List Char) : Option PyDate :=
  match parse4Digits l with
  | none => none
  | some (y, r1) =>
    match expectChar '-' r1 with
    | none => none
    | some r2 =>
      match parseNum2 1 12 r2 with
      | none => none
      | some (m, r3) =>
        match expectChar '-' r3 with
        | none => none
        | some r4 =>
          match parseNum2 1 31 r4 with
          | none => none
          | some (d, r5) => if r5 = [] then mkPyDate y m d else none

/-- Python `datetime.strptime(s, d2)` for the long display format: month
name, whitespace, day, comma, whitespace, four-digit year, requiring the
whole string to be consumed. -/
def parseDisplayDate (l : List Char) : Option PyDate :=
  match findMonth monthNames 1 l with
  | none => none
  | some (m, r1) =>
    match expectSpaces r1 with
    | none => none
    | some r2 =>
      match parseNum2 1 31 r2 with
      | none => none
      | some (d, r3) =>
        match expectChar ',' r3 with
        | none => none
        | some r4 =>
          match expectSpaces r4 with
          | none => none
          | some r5 =>
            match parse4Digits r5 with
            | none => none
            | some (y, r6) => if r6 = [] then mkPyDate y m d else none

/-- Decimal digits of a number, via `Nat.repr`. -/
def natDigits (n : Nat) : List Char := (Nat.repr n).toList

/-- Zero-padded two-digit field, as `strftime` pads the day. -/
def pad2 (n : Nat) : List Char := if n < 10 then '0' :: natDigits n else natDigits n

/-- Month name for `strftime`; `m` is 1-based. -/
def monthName (m : Nat) : List Char := monthNames.getD (m - 1) []

/-- Python `dt.strftime` with the long display format: full month name,
space, two-digit day, comma, space, year. -/
def formatDisplay (d : PyDate) : List Char :=
  monthName d.month ++ [' '] ++ pad2 d.day ++ [',', ' '] ++ natDigits d.year

/-- Date reformatting of `builder.py` lines 83-88: parse the compact date
and render the long display form; on failure carry the string through. -/
def formatPuzzleDate (date_str : List Char) : List Char :=
  match parseIsoDate date_str with
  | some d => formatDisplay d
  | none => date_str

/-- Source `word` element: `w.text` may be absent. -/
structure RawWord where
  text : Option (List Char)
deriving DecidableEq, Repr

/-- Source `puzzle` element of the raw archive read by `build_beeplus`:
attribute lookups default to the empty string; `letterEls` holds the text of
the positional elements `letter1`..`letter7` (`none` when the element is
absent or has no text). -/
structure RawPuzzle where
  date : List Char
  url : List Char
  puzzleid : List Char
  letters : List Char
  letterEls : List (Option (List Char))
  wordEls : List RawWord
deriving DecidableEq, Repr

/-- Enriched `word` element attributes, `builder.py` lines 116-122. -/
structure WordAttrs where
  original : List Char
  scrambled : List Char
  startletter : List Char
  firsttwo : List Char
  length : List Char
deriving DecidableEq, Repr

/-- Per-word enrichment of `builder.py` lines 109-123: uppercase and strip
the body text (empty when absent), then derive the five attributes. -/
def mkWordAttrs (sh : Nat → List Char → List Char) (w : RawWord) : WordAttrs :=
  let txt := pyStrip (pyUpper (w.text.getD []))
  { original := txt
    scrambled := scramble_word sh txt
    startletter := txt.take 1
    firsttwo := txt.take 2
    length := natDigits txt.length }

/-- Enriched `puzzle` element of `beesplus.xml`. -/
structure PlusPuzzle where
  date : List Char
  url : List Char
  puzzleid : List Char
  letters : List Char
  subscribersonly : Option (List Char)
  letterEls : List (List Char)
  words : List WordAttrs
deriving DecidableEq, Repr

/-- Per-puzzle transformation of `builder.py` lines 81-123: reformat the
date, copy the attributes, keep the letter elements that are present with
non-empty text, and enrich every word. -/
def transformPuzzle (sh : Nat → List Char → List Char) (p : RawPuzzle) :
    PlusPuzzle :=
  { date := formatPuzzleDate p.date
    url := p.url
    puzzleid := p.puzzleid
    letters := p.letters
    subscribersonly := none
    letterEls := p.letterEls.filterMap fun t =>
      match t with
      | some txt => if txt ≠ [] then some txt else none
      | none => none
    words := p.wordEls.map (mkWordAttrs sh) }

/-- The sort key of `builder.py` lines 126-131: re-parse the display date,
falling back to `datetime.min` when parsing fails. -/
def iso_key (p : PlusPuzzle) : PyDate :=
  (parseDisplayDate p.date).getD dateMin

/-- Comparison used by the chronological sort. -/
def puzzleLe (a b : PlusPuzzle) : Bool := dateLe (iso_key a) (iso_key b)

/-- The stable sort of `builder.py` line 132 (`sorted` with `key=iso_key`). -/
def sortPuzzles (l : List PlusPuzzle) : List PlusPuzzle := l.mergeSort puzzleLe

/-- Drop a pre-existing subscriber-only flag (`attrib.pop`). -/
def clearFlag (p : PlusPuzzle) : PlusPuzzle := { p with subscribersonly := none }

/-- Set the subscriber-only flag to the string "yes". -/
def setFlag (p : PlusPuzzle) : PlusPuzzle :=
  { p with subscribersonly := some ['y', 'e', 's'] }

/-- Apply `setFlag` to the last element of a list. -/
def setLastFlag : List PlusPuzzle → List PlusPuzzle
  | [] => []
  | [p] => [setFlag p]
  | p :: q :: rest => p :: setLastFlag (q :: rest)

/-- Flag maintenance of `builder.py` lines 134-138: when the collection is
non-empty, clear the flag from every record and set it on the last one. -/
def markLatest (l : List PlusPuzzle) : List PlusPuzzle :=
  if l.isEmpty then l else setLastFlag (l.map clearFlag)

/-- The whole enrichment pipeline of `build_beeplus` (`builder.py` lines
72-141): transform every puzzle in source order, sort chronologically,
mark the latest. -/
def build_beeplus (sh : Nat → List Char → List Char)
    (puzzles : List RawPuzzle) : List PlusPuzzle :=
  markLatest (sortPuzzles (puzzles.map (transformPuzzle sh)))

/-- Raw archive `puzzle` element written by `harvest.py`. -/
structure BeePuzzle where
  date : List Char
  words : List (List Char)
deriving DecidableEq, Repr

/-- `load_existing_dates` from `harvest.py` lines 24-29: the set of dates
already present in the archive, modelled as the list of date attributes with
membership as the set query. -/
def load_existing_dates (archive : List BeePuzzle) : List (List Char) :=
  archive.map (fun p => p.date)

/-- `append_puzzle` from `harvest.py` lines 77-96: add one dated record at
the end of the archive. -/
def append_puzzle (archive : List BeePuzzle) (date_str : List Char)
    (words : List (List Char)) : List BeePuzzle :=
  archive ++ [⟨date_str, words⟩]

/-- Status message printed by one run of `main`. -/
inductive RunReport where
  | alreadyExists
  | noWords
  | appended
deriving DecidableEq, Repr

/-- One run of `main` from `harvest.py` lines 99-112.  `fetchWords` stands
for the word list `fetch_today_words()` would return for today; the `Bool`
component records whether that network fetch was performed. -/
def harvestMain (today : List Char) (fetchWords : List (List Char))
    (archive : List BeePuzzle) : List BeePuzzle × Bool × RunReport :=
  if today ∈ load_existing_dates archive then (archive, false, .alreadyExists)
  else if fetchWords = [] then (archive, true, .noWords)
  else (append_puzzle archive today fetchWords, true, .appended)

/-- Number of records in the archive carrying a given date. -/
def countDate (d : List Char) (archive : List BeePuzzle) : Nat :=
  (archive.filter (fun p => decide (p.date = d))).length

/-- Index of the first opening brace, as `script.find` at line 45 of
`harvest.py` when the character occurs. -/
def firstBraceIdx : List Char → Option Nat
  | [] => none
  | c :: rest =>
    if c = '{' then some 0 else (firstBraceIdx rest).map (fun i => i + 1)

/-- One step of the brace count of `harvest.py` lines 48-51: increment on
an opening brace, decrement on a closing brace. -/
def braceStep (count : Int) (c : Char) : Int :=
  if c = '{' then count + 1 else if c = '}' then count - 1 else count

/-- Running brace depth over a string, starting from `acc`. -/
def braceDepth (acc : Int) (l : List Char) : Int :=
  l.foldl braceStep acc

/-- The scanning loop of `harvest.py` lines 46-54: update the count at each
character and stop at the first position where it reaches zero, returning
that position. -/
def braceScan (count : Int) : List Char → Option Nat
  | [] => none
  | c :: rest =>
    if braceStep count c = 0 then some 0
    else
      match braceScan (braceStep count c) rest with
      | some j => some (j + 1)
      | none => none

/-- The substring `fetch_today_words` extracts for JSON parsing
(`harvest.py` lines 45-54): from the first opening brace, scan until the
running depth returns to zero and slice out that span.  The two failure
paths (no opening brace, depth never returning to zero) are the undefined
behaviours of the original and are modelled as `none`. -/
def extractGameData (script : List Char) : Option (List Char) :=
  match firstBraceIdx script with
  | none => none
  | some start =>
    match braceScan 0 (script.drop start) with
    | none => none
    | some j => some ((script.drop start).take (j + 1))

theorem toUpper_of_isPySpace {c : Char} (h : isPySpace c) : c.toUpper = c := by
  simp only [isPySpace, Bool.or_eq_true, decide_eq_true_eq] at h
  rcases h with ((((h | h) | h) | h) | h) | h <;> subst h <;> decide

theorem pyStrip_all_space {l : List Char} (h : ∀ c ∈ l, isPySpace c) :
    pyStrip l = [] := by
  unfold pyStrip
  rw [List.dropWhile_eq_nil_iff.mpr h]
  rfl

theorem take_one_eq_head {l : List Char} (h : l ≠ []) : l.take 1 = [l.head h] := by
  cases l with
  | nil => exact absurd rfl h
  | cons a t => rfl

/-- Claim C3: with `txt` the uppercased and trimmed body text, the emitted
word record has `original` equal to `txt`, `startletter` equal to the first
character of `txt`, `firsttwo` equal to the first two characters of `txt`
(the whole of `txt` when it is shorter than two characters) and `length`
equal to the decimal string of the character count of `txt`. -/
theorem mkWordAttrs_fields (sh : Nat → List Char → List Char) (w : RawWord)
    (txt : List Char) (htxt : txt = pyStrip (pyUpper (w.text.getD []))) :
    (mkWordAttrs sh w).original = txt ∧
    (∀ h : txt ≠ [], (mkWordAttrs sh w).startletter = [txt.head h]) ∧
    (2 ≤ txt.length → (mkWordAttrs sh w).firsttwo = txt.take 2) ∧
    (txt.length < 2 → (mkWordAttrs sh w).firsttwo = txt) ∧
    (mkWordAttrs sh w).length = natDigits txt.length := by
  subst htxt
  refine ⟨rfl, ?_, fun _ => rfl, ?_, rfl⟩
  · intro h
    exact take_one_eq_head h
  · intro h
    exact List.take_of_length_le (by omega)

/-- Witness for C3 at the word "sky" of the spec's example. -/
theorem mkWordAttrs_fields_witness :
    (mkWordAttrs (fun _ l => l) ⟨some ['s', 'k', 'y']⟩).original = ['S', 'K', 'Y'] ∧
    (mkWordAttrs (fun _ l => l) ⟨some ['s', 'k', 'y']⟩).startletter = ['S'] ∧
    (mkWordAttrs (fun _ l => l) ⟨some ['s', 'k', 'y']⟩).firsttwo = ['S', 'K'] ∧
    (mkWordAttrs (fun _ l => l) ⟨some ['s', 'k', 'y']⟩).length = ['3'] := by
  obtain ⟨h1, h2, h3, h4, h5⟩ :=
    mkWordAttrs_fields (fun _ l => l) ⟨some ['s', 'k', 'y']⟩ ['S', 'K', 'Y']
      (by decide)
  refine ⟨h1, ?_, ?_, ?_⟩
  · rw [h2 (by decide)]; decide
  · rw [h3 (by decide)]; decide
  · rw [h5]; decide

/-- Claim C10: a word element whose body text is absent or whitespace-only
is processed without failure into the record with empty `original`,
`startletter`, `firsttwo` and `scrambled` and with `length` equal to "0". -/
theorem mkWordAttrs_blank (sh : Nat → List Char → List Char) (w : RawWord)
    (h : ∀ c ∈ w.text.getD [], isPySpace c) :
    mkWordAttrs sh w =
      { original := [], scrambled := [], startletter := [], firsttwo := [],
        length := ['0'] } := by
  have hup : ∀ c ∈ pyUpper (w.text.getD []), isPySpace c := by
    intro c hc
    obtain ⟨a, ha, rfl⟩ := List.mem_map.mp hc
    rw [toUpper_of_isPySpace (h a ha)]
    exact h a ha
  have htxt : pyStrip (pyUpper (w.text.getD [])) = [] := pyStrip_all_space hup
  unfold mkWordAttrs
  rw [htxt]
  rfl

/-- Witness for C10 at a whitespace-only body text. -/
theorem mkWordAttrs_blank_witness :
    mkWordAttrs (fun _ l => l) ⟨some [' ', '\t', ' ']⟩ =
      { original := [], scrambled := [], startletter := [], firsttwo := [],
        length := ['0'] } :=
  mkWordAttrs_blank (fun _ l => l) ⟨some [' ', '\t', ' ']⟩ (by decide)

theorem dateLe_trans (a b c : PyDate) (h1 : dateLe a b) (h2 : dateLe b c) :
    dateLe a c := by
  simp only [dateLe, Bool.or_eq_true, Bool.and_eq_true, decide_eq_true_eq] at h1 h2 ⊢
  omega

theorem dateLe_total (a b : PyDate) : dateLe a b || dateLe b a := by
  simp only [dateLe, Bool.or_eq_true, Bool.and_eq_true, decide_eq_true_eq]
  omega

theorem dateLe_refl (a : PyDate) : dateLe a a := by
  have h := dateLe_total a a
  simpa using h

theorem puzzleLe_trans (a b c : PlusPuzzle) (h1 : puzzleLe a b)
    (h2 : puzzleLe b c) : puzzleLe a c :=
  dateLe_trans _ _ _ h1 h2

theorem puzzleLe_total (a b : PlusPuzzle) : puzzleLe a b || puzzleLe b a :=
  dateLe_total _ _

theorem mkPyDate_ge_min {y m d : Nat} {dt : PyDate}
    (h : mkPyDate y m d = some dt) : dateLe dateMin dt := by
  unfold mkPyDate at h
  split at h
  · rename_i hc
    cases h
    simp only [dateLe, dateMin, Bool.or_eq_true, Bool.and_eq_true,
      decide_eq_true_eq]
    omega
  · cases h

theorem parseDisplayDate_ge_min {l : List Char} {dt : PyDate}
    (h : parseDisplayDate l = some dt) : dateLe dateMin dt := by
  unfold parseDisplayDate at h
  cases h1 : findMonth monthNames 1 l with
  | none => simp [h1] at h
  | some v1 =>
  obtain ⟨m, r1⟩ := v1
  simp only [h1] at h
  cases h2 : expectSpaces r1 with
  | none => simp [h2] at h
  | some r2 =>
  simp only [h2] at h
  cases h3 : parseNum2 1 31 r2 with
  | none => simp [h3] at h
  | some v3 =>
  obtain ⟨d, r3⟩ := v3
  simp only [h3] at h
  cases h4 : expectChar ',' r3 with
  | none => simp [h4] at h
  | some r4 =>
  simp only [h4] at h
  cases h5 : expectSpaces r4 with
  | none => simp [h5] at h
  | some r5 =>
  simp only [h5] at h
  cases h6 : parse4Digits r5 with
  | none => simp [h6] at h
  | some v6 =>
  obtain ⟨y, r6⟩ := v6
  simp only [h6] at h
  split at h
  · exact mkPyDate_ge_min h
  · cases h

theorem dateMin_le_iso_key (p : PlusPuzzle) : dateLe dateMin (iso_key p) := by
  unfold iso_key
  cases hp : parseDisplayDate p.date with
  | none => decide
  | some d => exact parseDisplayDate_ge_min hp

theorem iso_key_clearFlag (p : PlusPuzzle) : iso_key (clearFlag p) = iso_key p :=
  rfl

theorem iso_key_setFlag (p : PlusPuzzle) : iso_key (setFlag p) = iso_key p :=
  rfl

theorem setLastFlag_map_iso_key : ∀ l : List PlusPuzzle,
    (setLastFlag l).map iso_key = l.map iso_key
  | [] => rfl
  | [p] => rfl
  | p :: q :: rest => by
    simp only [setLastFlag, List.map_cons, List.cons.injEq, true_and]
    have := setLastFlag_map_iso_key (q :: rest)
    simpa using this

theorem markLatest_map_iso_key (l : List PlusPuzzle) :
    (markLatest l).map iso_key = l.map iso_key := by
  unfold markLatest
  split
  · rfl
  · rw [setLastFlag_map_iso_key, List.map_map]
    rfl

/-- Claim C4: the sequence of puzzle records written by the enricher is
pairwise nondecreasing in the key that re-parses the display date, where a
record whose display date fails to re-parse gets `datetime.min` as its key,
and that key is below every key. -/
theorem build_beeplus_sorted_by_date (sh : Nat → List Char → List Char)
    (puzzles : List RawPuzzle) :
    (build_beeplus sh puzzles).Pairwise
      (fun a b => dateLe (iso_key a) (iso_key b)) ∧
    (∀ p : PlusPuzzle, parseDisplayDate p.date = none → iso_key p = dateMin) ∧
    (∀ p : PlusPuzzle, dateLe dateMin (iso_key p)) := by
  refine ⟨?_, ?_, dateMin_le_iso_key⟩
  · have hsort : (sortPuzzles ((puzzles.map (transformPuzzle sh)))).Pairwise
        (fun a b => puzzleLe a b) :=
      List.sorted_mergeSort puzzleLe_trans puzzleLe_total _
    have h1 : ((sortPuzzles ((puzzles.map (transformPuzzle sh)))).map
        iso_key).Pairwise (fun x y => dateLe x y) :=
      List.pairwise_map.mpr hsort
    have h2 : ((build_beeplus sh puzzles).map iso_key).Pairwise
        (fun x y => dateLe x y) := by
      unfold build_beeplus
      rw [markLatest_map_iso_key]
      exact h1
    exact List.pairwise_map.mp h2
  · intro p hp
    unfold iso_key
    rw [hp]
    rfl

/-- Sample raw archive with the three dates of the spec's sorting example. -/
def samplePuzzles : List RawPuzzle :=
  [{ date := ['2', '0', '2', '4', '-', '0', '1', '-', '0', '5'], url := [],
     puzzleid := [], letters := [], letterEls := [], wordEls := [] },
   { date := ['2', '0', '2', '4', '-', '0', '3', '-', '0', '1'], url := [],
     puzzleid := [], letters := [], letterEls := [], wordEls := [] },
   { date := ['2', '0', '2', '4', '-', '0', '2', '-', '1', '0'], url := [],
     puzzleid := [], letters := [], letterEls := [], wordEls := [] }]

/-- Enriched record with display date January 05, 2024 and no other data. -/
def sampleJan : PlusPuzzle :=
  ⟨['J', 'a', 'n', 'u', 'a', 'r', 'y', ' ', '0', '5', ',', ' ',
    '2', '0', '2', '4'], [], [], [], none, [], []⟩

/-- Enriched record with display date February 10, 2024 and no other data. -/
def sampleFeb : PlusPuzzle :=
  ⟨['F', 'e', 'b', 'r', 'u', 'a', 'r', 'y', ' ', '1', '0', ',', ' ',
    '2', '0', '2', '4'], [], [], [], none, [], []⟩

/-- Enriched record with display date March 01, 2024 and no other data. -/
def sampleMar : PlusPuzzle :=
  ⟨['M', 'a', 'r', 'c', 'h', ' ', '0', '1', ',', ' ',
    '2', '0', '2', '4'], [], [], [], none, [], []⟩

theorem sample_transformed_eq :
    samplePuzzles.map (transformPuzzle (fun _ l => l)) =
      [sampleJan, sampleMar, sampleFeb] := by decide

theorem sample_sorted_eq :
    sortPuzzles [sampleJan, sampleMar, sampleFeb] =
      [sampleJan, sampleFeb, sampleMar] := by
  have h1 : puzzleLe sampleJan sampleMar = true := by decide
  have h2 : puzzleLe sampleJan sampleFeb = true := by decide
  have h3 : puzzleLe sampleMar sampleFeb = false := by decide
  simp [sortPuzzles, List.mergeSort, List.merge, h1, h2, h3]

/-- Witness for C4: on the spec's example archive the enriched output comes
out in the order January 05, February 10, March 01 of 2024, and the general
theorem applies to it. -/
theorem build_beeplus_sorted_by_date_witness :
    ((build_beeplus (fun _ l => l) samplePuzzles).map fun p => p.date) =
      [['J', 'a', 'n', 'u', 'a', 'r', 'y', ' ', '0', '5', ',', ' ',
        '2', '0', '2', '4'],
       ['F', 'e', 'b', 'r', 'u', 'a', 'r', 'y', ' ', '1', '0', ',', ' ',
        '2', '0', '2', '4'],
       ['M', 'a', 'r', 'c', 'h', ' ', '0', '1', ',', ' ',
        '2', '0', '2', '4']] ∧
    (build_beeplus (fun _ l => l) samplePuzzles).Pairwise
      (fun a b => dateLe (iso_key a) (iso_key b)) := by
  refine ⟨?_, (build_beeplus_sorted_by_date (fun _ l => l) samplePuzzles).1⟩
  show ((markLatest (sortPuzzles (samplePuzzles.map
    (transformPuzzle (fun _ l => l))))).map fun p => p.date) = _
  rw [sample_transformed_eq, sample_sorted_eq]
  decide

theorem setLastFlag_eq : ∀ (l : List PlusPuzzle) (h : l ≠ []),
    setLastFlag l = l.dropLast ++ [setFlag (l.getLast h)]
  | [], h => absurd rfl h
  | [p], _ => rfl
  | p :: q :: rest, _ => by
    have ih := setLastFlag_eq (q :: rest) (by simp)
    simp only [setLastFlag] at ih ⊢
    rw [ih]
    simp [List.getLast_cons]

theorem markLatest_length (l : List PlusPuzzle) :
    (markLatest l).length = l.length := by
  unfold markLatest
  split
  · rfl
  · rename_i hne
    rw [setLastFlag_eq (l.map clearFlag) (by simpa using hne)]
    have hl : l ≠ [] := by simpa using hne
    have hpos := List.length_pos.mpr hl
    simp only [List.length_append, List.length_dropLast, List.length_map,
      List.length_singleton]
    omega

/-- Claim C5: the enriched output has one record per input record; it is
empty exactly on the empty archive (no flag set, no error), and when it is
non-empty the last record in sorted order carries the subscriber-only flag
"yes" while every other record carries none. -/
theorem build_beeplus_latest_flag (sh : Nat → List Char → List Char)
    (puzzles : List RawPuzzle) :
    (build_beeplus sh puzzles).length = puzzles.length ∧
    (puzzles = [] → build_beeplus sh puzzles = []) ∧
    (∀ h : build_beeplus sh puzzles ≠ [],
      ((build_beeplus sh puzzles).getLast h).subscribersonly =
        some ['y', 'e', 's'] ∧
      ∀ p ∈ (build_beeplus sh puzzles).dropLast, p.subscribersonly = none) := by
  have hlen : (build_beeplus sh puzzles).length = puzzles.length := by
    unfold build_beeplus
    rw [markLatest_length]
    unfold sortPuzzles
    rw [List.length_mergeSort, List.length_map]
  refine ⟨hlen, ?_, ?_⟩
  · intro hp
    subst hp
    unfold build_beeplus sortPuzzles
    rw [List.map_nil, List.mergeSort_nil]
    rfl
  · intro h
    have hS : sortPuzzles (puzzles.map (transformPuzzle sh)) ≠ [] := by
      intro he
      apply h
      unfold build_beeplus
      rw [he]
      rfl
    have hM : (sortPuzzles (puzzles.map (transformPuzzle sh))).map clearFlag ≠ [] := by
      simpa using hS
    have hb : build_beeplus sh puzzles =
        ((sortPuzzles (puzzles.map (transformPuzzle sh))).map clearFlag).dropLast ++
          [setFlag (((sortPuzzles (puzzles.map (transformPuzzle sh))).map
            clearFlag).getLast hM)] := by
      unfold build_beeplus markLatest
      rw [if_neg (by simpa using hS)]
      exact setLastFlag_eq _ hM
    constructor
    · rw [List.getLast_congr h (by simp) hb,
        List.getLast_append_of_ne_nil (by simp)]
      rfl
    · intro p hp
      rw [hb, List.dropLast_concat] at hp
      have hp2 : p ∈ (sortPuzzles (puzzles.map (transformPuzzle sh))).map clearFlag :=
        (List.dropLast_sublist _).subset hp
      obtain ⟨q, _, rfl⟩ := List.mem_map.mp hp2
      rfl

/-- Witness for C5 on the spec's example archive: the last record of the
enriched output carries the flag and the earlier records carry none. -/
theorem build_beeplus_latest_flag_witness :
    ((build_beeplus (fun _ l => l) samplePuzzles).getLast?).map
        (fun p => p.subscribersonly) = some (some ['y', 'e', 's']) ∧
    ∀ p ∈ (build_beeplus (fun _ l => l) samplePuzzles).dropLast,
      p.subscribersonly = none := by
  have hbuild : build_beeplus (fun _ l => l) samplePuzzles =
      [clearFlag sampleJan, clearFlag sampleFeb, setFlag (clearFlag sampleMar)] := by
    show markLatest (sortPuzzles (samplePuzzles.map
      (transformPuzzle (fun _ l => l)))) = _
    rw [sample_transformed_eq, sample_sorted_eq]
    decide
  have hne : build_beeplus (fun _ l => l) samplePuzzles ≠ [] := by
    rw [hbuild]
    simp
  obtain ⟨hlenC5, hempC5, hlastC5⟩ :=
    build_beeplus_latest_flag (fun _ l => l) samplePuzzles
  obtain ⟨h1, h2⟩ := hlastC5 hne
  refine ⟨?_, h2⟩
  rw [List.getLast?_eq_getLast _ hne]
  simp only [Option.map_some']
  rw [h1]

theorem setLastFlag_map_clearFlag : ∀ l : List PlusPuzzle,
    (setLastFlag l).map clearFlag = l.map clearFlag
  | [] => rfl
  | [p] => rfl
  | p :: q :: rest => by
    simp only [setLastFlag, List.map_cons, List.cons.injEq, true_and]
    have := setLastFlag_map_clearFlag (q :: rest)
    simpa using this

theorem markLatest_map_clearFlag (l : List PlusPuzzle) :
    (markLatest l).map clearFlag = l.map clearFlag := by
  unfold markLatest
  split
  · rfl
  · rw [setLastFlag_map_clearFlag, List.map_map]
    rfl

/-- Claim C9: the chronological sort is stable: two transformed records with
equal re-parsed date keys (both failing to parse included, as both then get
the minimum key) keep in the sorted sequence the relative order they had in
the source-order sequence, and the written output is that sorted sequence up
to the subscriber-only flag. -/
theorem sortPuzzles_stable (sh : Nat → List Char → List Char)
    (puzzles : List RawPuzzle) (a b : PlusPuzzle)
    (hkey : iso_key a = iso_key b)
    (hsub : List.Sublist [a, b] (puzzles.map (transformPuzzle sh))) :
    List.Sublist [a, b] (sortPuzzles (puzzles.map (transformPuzzle sh))) ∧
    (build_beeplus sh puzzles).map clearFlag =
      (sortPuzzles (puzzles.map (transformPuzzle sh))).map clearFlag := by
  refine ⟨?_, markLatest_map_clearFlag _⟩
  have hle : puzzleLe a b = true := by
    unfold puzzleLe
    rw [hkey]
    exact dateLe_refl _
  exact List.pair_sublist_mergeSort puzzleLe_trans puzzleLe_total hle hsub

/-- Raw record with the unparseable date "zz". -/
def sampleBadA : RawPuzzle := ⟨['z', 'z'], [], [], [], [], []⟩

/-- Raw record with the unparseable date "yy". -/
def sampleBadB : RawPuzzle := ⟨['y', 'y'], [], [], [], [], []⟩

/-- Witness for C9: two records whose display dates both fail to re-parse
share the minimum-date key and keep their source order. -/
theorem sortPuzzles_stable_witness :
    List.Sublist [transformPuzzle (fun _ l => l) sampleBadA,
      transformPuzzle (fun _ l => l) sampleBadB]
      (sortPuzzles ([sampleBadA, sampleBadB].map (transformPuzzle (fun _ l => l)))) ∧
    (build_beeplus (fun _ l => l) [sampleBadA, sampleBadB]).map clearFlag =
      (sortPuzzles ([sampleBadA, sampleBadB].map
        (transformPuzzle (fun _ l => l)))).map clearFlag :=
  sortPuzzles_stable (fun _ l => l) [sampleBadA, sampleBadB]
    (transformPuzzle (fun _ l => l) sampleBadA)
    (transformPuzzle (fun _ l => l) sampleBadB)
    (by decide) (List.Sublist.refl _)

theorem countDate_eq_zero_iff {d : List Char} {a : List BeePuzzle} :
    countDate d a = 0 ↔ d ∉ load_existing_dates a := by
  unfold countDate load_existing_dates
  rw [List.length_eq_zero, List.filter_eq_nil_iff]
  simp [eq_comm]

/-- Claim C6: when a record for the date is already present the run performs
no fetch and leaves the archive unchanged; consequently, starting from an
archive without the date, two successive runs (with a non-empty fetched word
list) leave exactly one record for that date, the second run changing
nothing and fetching nothing. -/
theorem harvestMain_idempotent (today : List Char) (ws : List (List Char))
    (archive : List BeePuzzle) :
    (today ∈ load_existing_dates archive →
      harvestMain today ws archive = (archive, false, RunReport.alreadyExists)) ∧
    (countDate today archive = 0 → ws ≠ [] →
      countDate today (harvestMain today ws (harvestMain today ws archive).1).1 = 1 ∧
      (harvestMain today ws (harvestMain today ws archive).1).1 =
        (harvestMain today ws archive).1 ∧
      (harvestMain today ws (harvestMain today ws archive).1).2.1 = false) := by
  constructor
  · intro hmem
    unfold harvestMain
    rw [if_pos hmem]
  · intro hcount hws
    have hnot : today ∉ load_existing_dates archive := countDate_eq_zero_iff.mp hcount
    have h1 : (harvestMain today ws archive).1 = append_puzzle archive today ws := by
      unfold harvestMain
      rw [if_neg hnot, if_neg hws]
    have hmem2 : today ∈ load_existing_dates (append_puzzle archive today ws) := by
      unfold load_existing_dates append_puzzle
      simp
    have h2 : harvestMain today ws (harvestMain today ws archive).1 =
        ((harvestMain today ws archive).1, false, RunReport.alreadyExists) := by
      rw [h1]
      unfold harvestMain
      rw [if_pos hmem2]
    have hcnt : countDate today (append_puzzle archive today ws) = 1 := by
      unfold countDate at hcount ⊢
      unfold append_puzzle
      rw [List.filter_append, List.length_append, hcount]
      simp [List.filter]
    rw [h2]
    exact ⟨h1 ▸ hcnt, rfl, rfl⟩

/-- Witness for C6 at a one-record archive and at the empty archive. -/
theorem harvestMain_idempotent_witness :
    harvestMain ['d'] [['w']] [⟨['d'], [['w']]⟩] =
      ([⟨['d'], [['w']]⟩], false, RunReport.alreadyExists) ∧
    countDate ['d']
      (harvestMain ['d'] [['w']] (harvestMain ['d'] [['w']] []).1).1 = 1 := by
  refine ⟨(harvestMain_idempotent ['d'] [['w']] [⟨['d'], [['w']]⟩]).1 (by decide), ?_⟩
  exact ((harvestMain_idempotent ['d'] [['w']] []).2 (by decide) (by decide)).1

/-- Claim C7: when the fetched word list is empty the archive is left
unchanged, and when the date was not already present the run reports the
no-words no-op. -/
theorem harvestMain_empty_words (today : List Char) (archive : List BeePuzzle) :
    (harvestMain today [] archive).1 = archive ∧
    (today ∉ load_existing_dates archive →
      harvestMain today [] archive = (archive, true, RunReport.noWords)) := by
  constructor
  · unfold harvestMain
    split
    · rfl
    · rw [if_pos rfl]
  · intro h
    unfold harvestMain
    rw [if_neg h, if_pos rfl]

/-- Witness for C7 at the empty archive. -/
theorem harvestMain_empty_words_witness :
    (harvestMain ['d'] [] []).1 = ([] : List BeePuzzle) ∧
    harvestMain ['d'] [] [] = ([], true, RunReport.noWords) := by
  obtain ⟨h1, h2⟩ := harvestMain_empty_words ['d'] []
  exact ⟨h1, h2 (by decide)⟩

theorem firstBraceIdx_spec : ∀ (l : List Char) (i : Nat),
    firstBraceIdx l = some i →
    i < l.length ∧ (l.drop i).head? = some '{' ∧ ∀ c ∈ l.take i, c ≠ '{' := by
  intro l
  induction l with
  | nil => intro i h; cases h
  | cons ch rest ih =>
    intro i h
    unfold firstBraceIdx at h
    by_cases hc : ch = '{'
    · rw [if_pos hc] at h
      cases h
      subst hc
      refine ⟨by simp, rfl, ?_⟩
      intro c hcm
      simp at hcm
    · rw [if_neg hc] at h
      cases hf : firstBraceIdx rest with
      | none => rw [hf] at h; cases h
      | some j =>
        rw [hf] at h
        cases h
        obtain ⟨ih1, ih2, ih3⟩ := ih j hf
        refine ⟨by simpa using Nat.succ_lt_succ ih1, ih2, ?_⟩
        intro c hcm
        rw [List.take_succ_cons] at hcm
        rcases List.mem_cons.mp hcm with rfl | hcm2
        · exact hc
        · exact ih3 c hcm2

theorem braceScan_spec : ∀ (l : List Char) (c : Int) (j : Nat),
    braceScan c l = some j →
    j < l.length ∧ braceDepth c (l.take (j + 1)) = 0 ∧
    ∀ m, 0 < m → m < j + 1 → braceDepth c (l.take m) ≠ 0 := by
  intro l
  induction l with
  | nil => intro c j h; cases h
  | cons ch rest ih =>
    intro c j h
    unfold braceScan at h
    by_cases hz : braceStep c ch = 0
    · rw [if_pos hz] at h
      cases h
      refine ⟨by simp, ?_, ?_⟩
      · show braceDepth c [ch] = 0
        show braceStep c ch = 0
        exact hz
      · intro m hm0 hm1
        omega
    · rw [if_neg hz] at h
      cases hs : braceScan (braceStep c ch) rest with
      | none => rw [hs] at h; cases h
      | some k =>
        rw [hs] at h
        cases h
        obtain ⟨ih1, ih2, ih3⟩ := ih (braceStep c ch) k hs
        refine ⟨by simpa using Nat.succ_lt_succ ih1, ?_, ?_⟩
        · rw [List.take_succ_cons]
          show braceDepth (braceStep c ch) (rest.take (k + 1)) = 0
          exact ih2
        · intro m hm0 hm1
          cases m with
          | zero => omega
          | succ m2 =>
            rw [List.take_succ_cons]
            show braceDepth (braceStep c ch) (rest.take m2) ≠ 0
            cases Nat.eq_zero_or_pos m2 with
            | inl h0 =>
              subst h0
              show braceStep c ch ≠ 0
              exact hz
            | inr hpos => exact ih3 m2 hpos (by omega)

/-- Claim C8: the substring extracted for JSON parsing starts at the first
opening brace of the script (no opening brace occurs before it, the first
extracted character is an opening brace), it is the corresponding slice of
the script, its running brace depth returns to zero exactly at its end, and
no shorter non-empty slice from the same start has depth zero — it is the
shortest brace-balanced substring starting at the first opening brace. -/
theorem extractGameData_shortest_balanced (script s : List Char) (start : Nat)
    (hstart : firstBraceIdx script = some start)
    (h : extractGameData script = some s) :
    (∀ c ∈ script.take start, c ≠ '{') ∧
    s.head? = some '{' ∧
    s = (script.drop start).take s.length ∧
    braceDepth 0 s = 0 ∧
    (∀ m, 0 < m → m < s.length →
      braceDepth 0 ((script.drop start).take m) ≠ 0) := by
  obtain ⟨hlt, hhead, hbefore⟩ := firstBraceIdx_spec script start hstart
  unfold extractGameData at h
  simp only [hstart] at h
  cases hb : braceScan 0 (script.drop start) with
  | none => simp [hb] at h
  | some j =>
    simp only [hb] at h
    cases h
    obtain ⟨hj, hdep, hmin⟩ := braceScan_spec _ 0 j hb
    have hslen : ((script.drop start).take (j + 1)).length = j + 1 := by
      rw [List.length_take]
      omega
    refine ⟨hbefore, ?_, ?_, hdep, ?_⟩
    · cases e : script.drop start with
      | nil => rw [e] at hhead; cases hhead
      | cons a t =>
        rw [e] at hhead
        rw [List.take_succ_cons]
        simp only [List.head?_cons] at hhead ⊢
        exact hhead
    · rw [hslen]
    · rw [hslen]
      exact hmin

/-- Witness for C8 on a small script: the first opening brace is at index 1
and the scan stops after the seventh character of the slice, at the first
return of the depth to zero. -/
theorem extractGameData_shortest_balanced_witness :
    (∀ c ∈ (['x', '{', 'a', '{', '}', '{', '}', '}', '}'] : List Char).take 1,
      c ≠ '{') ∧
    (['{', 'a', '{', '}', '{', '}', '}'] : List Char).head? = some '{' ∧
    (['{', 'a', '{', '}', '{', '}', '}'] : List Char) =
      ((['x', '{', 'a', '{', '}', '{', '}', '}', '}'] : List Char).drop 1).take
        (['{', 'a', '{', '}', '{', '}', '}'] : List Char).length ∧
    braceDepth 0 ['{', 'a', '{', '}', '{', '}', '}'] = 0 ∧
    (∀ m, 0 < m → m < (['{', 'a', '{', '}', '{', '}', '}'] : List Char).length →
      braceDepth 0 (((['x', '{', 'a', '{', '}', '{', '}', '}', '}'] :
        List Char).drop 1).take m) ≠ 0) :=
  extractGameData_shortest_balanced
    ['x', '{', 'a', '{', '}', '{', '}', '}', '}']
    ['{', 'a', '{', '}', '{', '}', '}'] 1 (by decide) (by decide)

end BeeBox
